import Mathlib

/-!
Verification of the fixed-block deduplicating codec
(`src/compressor.c`, `src/dictionary.c`).

The development shallowly embeds the multi-layout (DDP2) encoder
`compress_file_multi`, the DDP2 decoder `decompress_file_multi`, the
magic-dispatching `decompress_file`, the DDP1 decoder
`decompress_file_single`, and the dictionary operations `dict_find` /
`dict_add`.

Modelling conventions:
* a file is a `List Nat` of byte values;
* C functions returning a nonzero error status become `Option`-valued
  functions returning `none` on the error paths (in particular `none`
  for a decode means: nonzero result, no output file written);
* `size_t` / `int` / `uint32_t` arithmetic is `Nat` arithmetic, with the
  `(uint32_t)` casts made explicit as `% 2 ^ 32` where the source casts;
  the decoder's `(int)num_segs_u32 <= 0` test is modelled as
  `numSegs = 0 ∨ 2 ^ 31 ≤ numSegs` (zero, or negative after the cast);
* `memcmp(x, y, n) == 0` over buffers is `x.take n = y.take n`
  (all buffers involved hold exactly `n` bytes at every call site);
* `memcpy(dst, src, n)` where `src` logically holds fewer than `n`
  written bytes would copy uninitialized memory in C; the model
  (`copy_exact`) pads with zeros instead, and every theorem below stays
  in the regime where the lengths match, so the padding is never
  exercised.
-/

/- ============================================================
   Container-format codec: little-endian u32 I/O
   ============================================================ -/

/-- Embedding of `write_u32_le` (compressor.c): the four little-endian
bytes of `v`, after the callers' `(uint32_t)` truncation. -/
def write_u32_le (v : Nat) : List Nat :=
  [v % 2 ^ 32 % 256,
   v % 2 ^ 32 / 2 ^ 8 % 256,
   v % 2 ^ 32 / 2 ^ 16 % 256,
   v % 2 ^ 32 / 2 ^ 24 % 256]

/-- Embedding of `read_u32_le` (compressor.c): consume four bytes,
fail on short read. -/
def read_u32_le (xs : List Nat) : Option (Nat × List Nat) :=
  match xs with
  | b0 :: b1 :: b2 :: b3 :: rest =>
      some (b0 + b1 * 2 ^ 8 + b2 * 2 ^ 16 + b3 * 2 ^ 24, rest)
  | _ => none

/-- Model of `fread(buf, 1, n, fp)` with a mandatory full read:
consume exactly `n` bytes, fail on short read. -/
def read_bytes (n : Nat) (xs : List Nat) : Option (List Nat × List Nat) :=
  if n ≤ xs.length then some (xs.take n, xs.drop n) else none

/-- Read `n` consecutive u32 values (the `seg_sizes` and `block_ids`
read loops of the decoders). -/
def read_u32_list : Nat → List Nat → Option (List Nat × List Nat)
  | 0, xs => some ([], xs)
  | n + 1, xs =>
    match read_u32_le xs with
    | none => none
    | some (v, r) =>
      match read_u32_list n r with
      | none => none
      | some (vs, r2) => some (v :: vs, r2)

/-- Read `n` consecutive blocks of `bb` bytes each (the dictionary
read loops of the decoders). -/
def read_blocks : Nat → Nat → List Nat → Option (List (List Nat) × List Nat)
  | 0, _, xs => some ([], xs)
  | n + 1, bb, xs =>
    match read_bytes bb xs with
    | none => none
    | some (b, r) =>
      match read_blocks n bb r with
      | none => none
      | some (bs, r2) => some (b :: bs, r2)

/-- Model of `memcpy(out, tmp, n)` where `tmp` logically holds the bytes
of `l`: copies `n` bytes.  When `l` has fewer than `n` bytes the C code
would copy uninitialized memory; the model pads with zeros (no theorem
below depends on the pad). -/
def copy_exact (n : Nat) (l : List Nat) : List Nat :=
  l.take n ++ List.replicate (n - l.length) 0

/- ============================================================
   Dictionary (dictionary.c): ordered store with linear lookup
   ============================================================ -/

/-- Auxiliary recursion of `dict_find`: walk the node list carrying the
running index. -/
def dict_find_from (block_size : Nat) (blocks : List (List Nat))
    (block : List Nat) (i : Nat) : Int :=
  match blocks with
  | [] => -1
  | e :: rest =>
    if e.take block_size = block.take block_size then (i : Int)
    else dict_find_from block_size rest block (i + 1)

/-- Embedding of `dict_find` (dictionary.c): index of the first stored
block whose `block_size` bytes equal those of `block` (`memcmp == 0`),
or `-1` when absent.  The dictionary is the ordered list of stored
blocks; node `index` fields equal list positions. -/
def dict_find (block_size : Nat) (blocks : List (List Nat))
    (block : List Nat) : Int :=
  dict_find_from block_size blocks block 0

/-- Embedding of `dict_add` (dictionary.c): append a copy of the first
`block_size` bytes of `block`, return the new store and the index of
the new node (= previous size). -/
def dict_add (block_size : Nat) (blocks : List (List Nat))
    (block : List Nat) : List (List Nat) × Nat :=
  (blocks ++ [block.take block_size], blocks.length)

/- ============================================================
   Multi-layout deviation transform (compressor.c)
   ============================================================ -/

/-- Embedding of `compute_block_bytes_multi`: 0 when a segment size is
nonpositive (here: zero), otherwise the sum. -/
def compute_block_bytes_multi (seg_sizes : List Nat) : Nat :=
  if seg_sizes.any (· = 0) then 0 else seg_sizes.sum

/-- Embedding of `compute_dev_len_multi`: each segment contributes
`len / 2` deviation bytes, the last one `len / 2 + len % 2`. -/
def compute_dev_len_multi : List Nat → Nat
  | [] => 0
  | [len] => len / 2 + len % 2
  | len :: rest => len / 2 + compute_dev_len_multi rest

/-- Embedding of `extract_base_and_deviation_multi`: returns
`(base, dev)`.  For each segment the first `take` bytes move to the
deviation vector and are zeroed in the base (`take = len / 2`, plus one
more byte on the last segment when `len` is odd).  Bytes beyond the
declared segments pass through to the base unchanged (the C function
mutates `block_buf` in place and never touches them). -/
def extract_base_and_deviation_multi (seg_sizes : List Nat)
    (block : List Nat) : List Nat × List Nat :=
  match seg_sizes with
  | [] => (block, [])
  | [len] =>
    let t := len / 2 + len % 2
    (List.replicate t 0 ++ block.drop t, block.take t)
  | len :: rest =>
    let t := len / 2
    let e := extract_base_and_deviation_multi rest (block.drop len)
    (List.replicate t 0 ++ (block.take len).drop t ++ e.1,
     block.take t ++ e.2)

/-- Embedding of `merge_base_and_deviation_multi`: rebuild the block
from `(base, dev)` and also return the number of deviation bytes
consumed (the C return value `dev_off`).  Only the declared segments
are written (`out_block` bytes beyond them are never touched in C, and
none exist at any call site since the sum equals the block size). -/
def merge_base_and_deviation_multi (seg_sizes : List Nat)
    (base dev : List Nat) : List Nat × Nat :=
  match seg_sizes with
  | [] => ([], 0)
  | [len] =>
    let t := len / 2 + len % 2
    (dev.take t ++ (base.take len).drop t, t)
  | len :: rest =>
    let t := len / 2
    let m := merge_base_and_deviation_multi rest (base.drop len) (dev.drop t)
    (dev.take t ++ (base.take len).drop t ++ m.1, t + m.2)

/- ============================================================
   Multi-layout encoder (compress_file_multi, magic DDP2)
   ============================================================ -/

/-- The four magic bytes of the single-layout container. -/
def ddp1_magic : List Nat := [68, 68, 80, 49]

/-- The four magic bytes of the multi-layout container. -/
def ddp2_magic : List Nat := [68, 68, 80, 50]

/-- Split the first `k` blocks of `bb` bytes off the input, in order
(the encoder's `fread` loop reads exactly `bb` bytes per iteration). -/
def chunk_blocks : Nat → Nat → List Nat → List (List Nat)
  | 0, _, _ => []
  | k + 1, bb, xs => xs.take bb :: chunk_blocks k bb (xs.drop bb)

/-- Embedding of the per-block loop of `compress_file_multi`: split each
block, check the extracted deviation length against
`dev_len_per_block`, look the base up in the dictionary and insert it
when absent, record the index and append the deviation to the stream.
Returns the final dictionary, the index list and the deviation
stream. -/
def encode_blocks (seg_sizes : List Nat) (block_bytes dev_len : Nat)
    (dict : List (List Nat)) :
    List (List Nat) → Option (List (List Nat) × List Nat × List Nat)
  | [] => some (dict, [], [])
  | blk :: rest =>
    let e := extract_base_and_deviation_multi seg_sizes blk
    if e.2.length ≠ dev_len then none
    else
      let i := dict_find block_bytes dict e.1
      let step : List (List Nat) × Nat :=
        if i = -1 then dict_add block_bytes dict e.1 else (dict, i.toNat)
      match encode_blocks seg_sizes block_bytes dev_len step.1 rest with
      | none => none
      | some (dictF, ids, devS) => some (dictF, step.2 :: ids, e.2 ++ devS)

/-- Embedding of `compress_file_multi` (compressor.c): validate the
layout, require at least one full block, encode, and emit the single
output file: magic, `block_bytes`, `num_segs`, `dict_size`,
`num_blocks` (u32 LE each), the `seg_sizes` as u32 LE, the dictionary
blocks, the block ids as u32 LE each, and the deviation stream.  The
trailing `input.length % block_bytes` bytes are discarded (warning
only). -/
def compress_file_multi (seg_sizes : List Nat) (input : List Nat) :
    Option (List Nat) :=
  if seg_sizes.length = 0 then none
  else
    let block_bytes := compute_block_bytes_multi seg_sizes
    if block_bytes = 0 then none
    else if input.length < block_bytes then none
    else
      let num_blocks := input.length / block_bytes
      if num_blocks = 0 then none
      else
        let dev_len := compute_dev_len_multi seg_sizes
        match encode_blocks seg_sizes block_bytes dev_len []
            (chunk_blocks num_blocks block_bytes input) with
        | none => none
        | some (dictF, ids, devS) =>
          some (ddp2_magic
            ++ write_u32_le block_bytes
            ++ write_u32_le seg_sizes.length
            ++ write_u32_le dictF.length
            ++ write_u32_le num_blocks
            ++ (seg_sizes.map write_u32_le).flatten
            ++ dictF.flatten
            ++ (ids.map write_u32_le).flatten
            ++ devS)

/- ============================================================
   Multi-layout decoder (decompress_file_multi)
   ============================================================ -/

/-- The data `decompress_file_multi` has in hand once all its reads
succeeded, before the per-block reconstruction loop (the C code reads
the whole file before the loop, so parsing and decoding separate
cleanly).  `dict_size` and `num_blocks` are the header fields;
`dict.length = dict_size` and `ids.length = num_blocks` hold for every
parse (proved below). -/
structure Ddp2Segment where
  block_bytes : Nat
  seg_sizes : List Nat
  dict_size : Nat
  num_blocks : Nat
  dict : List (List Nat)
  ids : List Nat
  dev_stream : List Nat
  deriving DecidableEq, Repr

/-- Embedding of the reading half of `decompress_file_multi`: magic,
the four header u32s, the `num_segs` positivity test (the `(int)` cast
makes values `≥ 2^31` negative), `seg_sizes`, dictionary blocks, block
ids, and the deviation stream (a zero-length deviation stream is simply
not read; `read_bytes 0` succeeds identically).  The
`sum(seg_sizes) != block_bytes` case only prints a warning in C and
parsing continues. -/
def parse_ddp2 (f : List Nat) : Option Ddp2Segment :=
  match read_bytes 4 f with
  | none => none
  | some (magic, r0) =>
    if magic ≠ ddp2_magic then none
    else
      match read_u32_le r0 with
      | none => none
      | some (block_bytes, r1) =>
        match read_u32_le r1 with
        | none => none
        | some (num_segs, r2) =>
          match read_u32_le r2 with
          | none => none
          | some (dict_size, r3) =>
            match read_u32_le r3 with
            | none => none
            | some (num_blocks, r4) =>
              if num_segs = 0 ∨ 2 ^ 31 ≤ num_segs then none
              else
                match read_u32_list num_segs r4 with
                | none => none
                | some (seg_sizes, r5) =>
                  let dev_len := compute_dev_len_multi seg_sizes
                  match read_blocks dict_size block_bytes r5 with
                  | none => none
                  | some (dict, r6) =>
                    match read_u32_list num_blocks r6 with
                    | none => none
                    | some (ids, r7) =>
                      match read_bytes (num_blocks * dev_len) r7 with
                      | none => none
                      | some (dev_stream, _) =>
                        some ⟨block_bytes, seg_sizes, dict_size,
                              num_blocks, dict, ids, dev_stream⟩

/-- Embedding of the reconstruction loop of `decompress_file_multi`:
for each block id, reject ids not below the dictionary size, fetch the
base, merge it with the next `dev_len` deviation bytes (or copy the
base verbatim when the deviation stream was empty, `dev_stream ==
NULL`), check the consumed deviation count, and append `block_bytes`
bytes of the result. -/
def decode_loop_multi (block_bytes : Nat) (seg_sizes : List Nat)
    (dict : List (List Nat)) (dev_len : Nat) (use_dev : Bool) :
    List Nat → List Nat → Option (List Nat)
  | [], _ => some []
  | id :: rest, dev =>
    if dict.length ≤ id then none
    else
      let base := dict.getD id []
      let tmp : List Nat × Nat :=
        if use_dev then
          merge_base_and_deviation_multi seg_sizes base (dev.take dev_len)
        else (base.take block_bytes, 0)
      if use_dev ∧ tmp.2 ≠ dev_len then none
      else
        match decode_loop_multi block_bytes seg_sizes dict dev_len use_dev
            rest (dev.drop dev_len) with
        | none => none
        | some out => some (copy_exact block_bytes tmp.1 ++ out)

/-- Reconstruction half of `decompress_file_multi` on a parsed segment:
`dev_len` is recomputed from the parsed `seg_sizes`, and the deviation
stream exists (`dev_stream != NULL`) exactly when
`num_blocks * dev_len > 0`. -/
def decode_ddp2 (s : Ddp2Segment) : Option (List Nat) :=
  let dev_len := compute_dev_len_multi s.seg_sizes
  decode_loop_multi s.block_bytes s.seg_sizes s.dict dev_len
    (decide (0 < s.num_blocks * dev_len)) s.ids s.dev_stream

/-- Embedding of `decompress_file_multi` (compressor.c): parse, then
reconstruct; `none` on every error path (nonzero status, no output
file written). -/
def decompress_file_multi (f : List Nat) : Option (List Nat) :=
  match parse_ddp2 f with
  | none => none
  | some s => decode_ddp2 s

/- ============================================================
   Single-layout decoder (decompress_file_single, magic DDP1)
   ============================================================ -/

/-- Embedding of `compute_dev_len_single`:
`block_size_samples * (width / 2)` plus one byte when the width is
odd. -/
def compute_dev_len_single (width_bytes block_size_samples : Nat) : Nat :=
  block_size_samples * (width_bytes / 2) +
    (if width_bytes % 2 = 1 then 1 else 0)

/-- Embedding of `merge_base_and_deviation_single`: the single-layout
loop over `block_size_samples` samples of `width_bytes` bytes is the
multi-layout loop applied to the uniform layout
`[width_bytes, …, width_bytes]` (`block_size_samples` copies): both
take `width / 2` low bytes per sample plus one extra byte on the last
sample when the width is odd. -/
def merge_base_and_deviation_single (width_bytes block_size_samples : Nat)
    (base dev : List Nat) : List Nat × Nat :=
  merge_base_and_deviation_multi
    (List.replicate block_size_samples width_bytes) base dev

/-- Embedding of the reconstruction loop of `decompress_file_single`:
like the multi-layout loop, plus the output-bounds test
`offset + block_size_bytes > total_bytes` carried as the running
position `pos`. -/
def decode_loop_single (width_bytes block_size_samples block_size_bytes : Nat)
    (dict : List (List Nat)) (dev_len : Nat) (use_dev : Bool) (total : Nat) :
    List Nat → List Nat → Nat → Option (List Nat)
  | [], _, _ => some []
  | id :: rest, dev, pos =>
    if dict.length ≤ id then none
    else
      let base := dict.getD id []
      let tmp : List Nat × Nat :=
        if use_dev then
          merge_base_and_deviation_single width_bytes block_size_samples
            base (dev.take dev_len)
        else (base.take block_size_bytes, 0)
      if use_dev ∧ tmp.2 ≠ dev_len then none
      else if total < pos + block_size_bytes then none
      else
        match decode_loop_single width_bytes block_size_samples
            block_size_bytes dict dev_len use_dev total rest
            (dev.drop dev_len) (pos + block_size_bytes) with
        | none => none
        | some out => some (copy_exact block_size_bytes tmp.1 ++ out)

/-- Embedding of `decompress_file_single` (compressor.c, magic DDP1):
header is `sample_count`, `block_size_samples`, a 4-byte extra field
whose first byte is `width_bytes` (validated to be 1, 2, 4 or 8),
`dict_size` and `num_blocks`; then dictionary, u32 block ids and
deviation stream, then the reconstruction loop into a buffer of
`sample_count * width_bytes` bytes.  Buffer bytes past the last block
are uninitialized in C; the model zero-pads (unreachable in files the
encoder writes, where `sample_count * width = num_blocks * bsb`). -/
def decompress_file_single (f : List Nat) : Option (List Nat) :=
  match read_bytes 4 f with
  | none => none
  | some (magic, r0) =>
    if magic ≠ ddp1_magic then none
    else
      match read_u32_le r0 with
      | none => none
      | some (sample_count, r1) =>
        match read_u32_le r1 with
        | none => none
        | some (block_size_samples, r2) =>
          match read_bytes 4 r2 with
          | none => none
          | some (extra, r3) =>
            let width_bytes := extra.getD 0 0
            if ¬(width_bytes = 1 ∨ width_bytes = 2 ∨
                 width_bytes = 4 ∨ width_bytes = 8) then none
            else
              match read_u32_le r3 with
              | none => none
              | some (dict_size, r4) =>
                match read_u32_le r4 with
                | none => none
                | some (num_blocks, r5) =>
                  let bsb := block_size_samples * width_bytes
                  let dev_len :=
                    compute_dev_len_single width_bytes block_size_samples
                  match read_blocks dict_size bsb r5 with
                  | none => none
                  | some (dict, r6) =>
                    match read_u32_list num_blocks r6 with
                    | none => none
                    | some (ids, r7) =>
                      match read_bytes (num_blocks * dev_len) r7 with
                      | none => none
                      | some (dev_stream, _) =>
                        let total := sample_count * width_bytes
                        match decode_loop_single width_bytes
                            block_size_samples bsb dict dev_len
                            (decide (0 < num_blocks * dev_len)) total
                            ids dev_stream 0 with
                        | none => none
                        | some out =>
                          some (out ++
                            List.replicate (total - num_blocks * bsb) 0)

/- ============================================================
   Decompressor dispatcher (decompress_file)
   ============================================================ -/

/-- Embedding of `decompress_file` (compressor.c): read the four magic
bytes, then dispatch — DDP1 to the single-layout decoder, DDP2 to the
multi-layout decoder, anything else is rejected. -/
def decompress_file (f : List Nat) : Option (List Nat) :=
  match read_bytes 4 f with
  | none => none
  | some (magic, _) =>
    if magic = ddp1_magic then decompress_file_single f
    else if magic = ddp2_magic then decompress_file_multi f
    else none

/- ============================================================
   Specification-side definition and concrete files
   ============================================================ -/

/-- Written from the specification's wording (for comparison with the
code's `extract_base_and_deviation_multi`): the deviation vector of a
block is exactly the first `⌊len/2⌋` bytes of each segment in declared
order, with the last segment contributing one additional byte when its
size is odd. -/
def dev_bytes_spec (seg_sizes : List Nat) (block : List Nat) : List Nat :=
  match seg_sizes with
  | [] => []
  | [len] => block.take (len / 2 + (if len % 2 = 1 then 1 else 0))
  | len :: rest => block.take (len / 2) ++ dev_bytes_spec rest (block.drop len)

/-- The 31-byte segment file the multi-layout encoder produces for the
two-byte input `[5, 7]` with layout `[2]`: magic, `block_bytes = 2`,
`num_segs = 1`, `dict_size = 1`, `num_blocks = 1`, `seg_sizes = [2]`,
one dictionary base `[0, 7]`, one u32 block id `0` (four bytes on the
wire) and the one-byte deviation stream `[5]`. -/
def ddp2_sample_file : List Nat :=
  [68, 68, 80, 50, 2, 0, 0, 0, 1, 0, 0, 0, 1, 0, 0, 0, 1, 0, 0, 0,
   2, 0, 0, 0, 0, 7, 0, 0, 0, 0, 5]

/-- A 512-byte input of 256 pairwise-distinct two-byte blocks: block
`i` is `[i, i]`.  Under layout `[2]` every block has a distinct base
`[0, i]`. -/
def distinct_blocks_input : List Nat :=
  ((List.range 256).map (fun i => [i, i])).flatten

/-- A hand-crafted DDP2 segment whose header declares
`dict_size = 256` (greater than 255): layout `[2]`, one block, 256
two-byte dictionary entries (all zero), block id `0`, deviation stream
`[9]`. -/
def big_dict_file : List Nat :=
  ddp2_magic ++ write_u32_le 2 ++ write_u32_le 1 ++ write_u32_le 256 ++
    write_u32_le 1 ++ write_u32_le 2 ++ List.replicate 512 0 ++
    write_u32_le 0 ++ [9]

/-- A hand-crafted DDP2 segment in the shape of the spec's S6 scenario:
`dict_size = 3`, one block whose index field holds `5 ≥ 3`; layout
`[2]`, three two-byte dictionary entries (all zero), deviation stream
`[9]`. -/
def index_overflow_file : List Nat :=
  ddp2_magic ++ write_u32_le 2 ++ write_u32_le 1 ++ write_u32_le 3 ++
    write_u32_le 1 ++ write_u32_le 2 ++ List.replicate 6 0 ++
    write_u32_le 5 ++ [9]

/- ============================================================
   Serialization lemmas
   ============================================================ -/

theorem read_write_u32 (v : Nat) (rest : List Nat) :
    read_u32_le (write_u32_le v ++ rest) = some (v % 2 ^ 32, rest) := by
  have h : read_u32_le (write_u32_le v ++ rest) =
      some (v % 2 ^ 32 % 256 + v % 2 ^ 32 / 2 ^ 8 % 256 * 2 ^ 8 +
            v % 2 ^ 32 / 2 ^ 16 % 256 * 2 ^ 16 +
            v % 2 ^ 32 / 2 ^ 24 % 256 * 2 ^ 24, rest) := rfl
  rw [h, Option.some.injEq, Prod.mk.injEq]
  exact ⟨by omega, rfl⟩

theorem read_write_u32_lt {v : Nat} (hv : v < 2 ^ 32) (rest : List Nat) :
    read_u32_le (write_u32_le v ++ rest) = some (v, rest) := by
  rw [read_write_u32, Nat.mod_eq_of_lt hv]

theorem write_u32_le_length (v : Nat) : (write_u32_le v).length = 4 := rfl

theorem read_bytes_exact {xs : List Nat} {n : Nat} (h : xs.length = n)
    (rest : List Nat) : read_bytes n (xs ++ rest) = some (xs, rest) := by
  unfold read_bytes
  rw [if_pos (by simp [List.length_append]; omega),
    List.take_left' h, List.drop_left' h]

theorem read_u32_list_roundtrip (vs : List Nat)
    (hvs : ∀ v ∈ vs, v < 2 ^ 32) (rest : List Nat) :
    read_u32_list vs.length ((vs.map write_u32_le).flatten ++ rest) =
      some (vs, rest) := by
  induction vs with
  | nil => rfl
  | cons v vs ih =>
    have h1 : (((v :: vs).map write_u32_le).flatten ++ rest)
        = write_u32_le v ++ ((vs.map write_u32_le).flatten ++ rest) := by
      simp
    rw [List.length_cons, h1]
    simp only [read_u32_list, read_write_u32_lt (hvs v (by simp)),
      ih (fun u hu => hvs u (by simp [hu]))]

theorem read_blocks_roundtrip (bs : List (List Nat)) {bb : Nat}
    (hbs : ∀ b ∈ bs, b.length = bb) (rest : List Nat) :
    read_blocks bs.length bb (bs.flatten ++ rest) = some (bs, rest) := by
  induction bs with
  | nil => rfl
  | cons b bs ih =>
    have h1 : ((b :: bs).flatten ++ rest) = b ++ (bs.flatten ++ rest) := by
      simp
    rw [List.length_cons, h1]
    simp only [read_blocks, read_bytes_exact (hbs b (by simp)),
      ih (fun u hu => hbs u (by simp [hu]))]

/- ============================================================
   Deviation-transform lemmas
   ============================================================ -/

theorem merge_dev_off (seg_sizes : List Nat) (base dev : List Nat) :
    (merge_base_and_deviation_multi seg_sizes base dev).2 =
      compute_dev_len_multi seg_sizes := by
  induction seg_sizes generalizing base dev with
  | nil => rfl
  | cons len rest ih =>
    cases rest with
    | nil => rfl
    | cons l2 r2 =>
      simp only [merge_base_and_deviation_multi, compute_dev_len_multi, ih]

theorem extract_dev_length (seg_sizes : List Nat) (block : List Nat)
    (h : seg_sizes.sum ≤ block.length) :
    (extract_base_and_deviation_multi seg_sizes block).2.length =
      compute_dev_len_multi seg_sizes := by
  induction seg_sizes generalizing block with
  | nil => rfl
  | cons len rest ih =>
    cases rest with
    | nil =>
      simp only [List.sum_cons, List.sum_nil] at h
      simp only [extract_base_and_deviation_multi, compute_dev_len_multi,
        List.length_take]
      omega
    | cons l2 r2 =>
      simp only [List.sum_cons] at h
      have hrec := ih (block.drop len) (by simp [List.length_drop]; omega)
      simp only [extract_base_and_deviation_multi, compute_dev_len_multi,
        List.length_append, List.length_take, hrec]
      have : len / 2 ≤ len := Nat.div_le_self _ _
      omega

theorem extract_base_length (seg_sizes : List Nat) (block : List Nat)
    (h : seg_sizes.sum ≤ block.length) :
    (extract_base_and_deviation_multi seg_sizes block).1.length =
      block.length := by
  induction seg_sizes generalizing block with
  | nil => rfl
  | cons len rest ih =>
    cases rest with
    | nil =>
      simp only [List.sum_cons, List.sum_nil] at h
      simp only [extract_base_and_deviation_multi, List.length_append,
        List.length_replicate, List.length_drop]
      omega
    | cons l2 r2 =>
      simp only [List.sum_cons] at h
      have hrec := ih (block.drop len) (by simp [List.length_drop]; omega)
      simp only [extract_base_and_deviation_multi, List.length_append,
        List.length_replicate, List.length_drop, List.length_take, hrec]
      have : len / 2 ≤ len := Nat.div_le_self _ _
      omega

theorem merge_extract (seg_sizes : List Nat) (block : List Nat)
    (h : block.length = seg_sizes.sum) :
    (merge_base_and_deviation_multi seg_sizes
      (extract_base_and_deviation_multi seg_sizes block).1
      (extract_base_and_deviation_multi seg_sizes block).2).1 = block := by
  induction seg_sizes generalizing block with
  | nil =>
    simp only [List.sum_nil] at h
    rw [List.length_eq_zero] at h
    simp [h, merge_base_and_deviation_multi,
      extract_base_and_deviation_multi]
  | cons len rest ih =>
    cases rest with
    | nil =>
      simp only [List.sum_cons, List.sum_nil, Nat.add_zero] at h
      simp only [extract_base_and_deviation_multi,
        merge_base_and_deviation_multi]
      set t := len / 2 + len % 2 with hts
      have ht : t ≤ len := by omega
      have e1 : (block.take t).take t = block.take t := by
        rw [List.take_take, Nat.min_self]
      have e2 : (List.replicate t (0 : Nat) ++ block.drop t).take len =
          List.replicate t 0 ++ (block.drop t).take (len - t) := by
        rw [List.take_append_eq_append_take, List.length_replicate,
          List.take_replicate, Nat.min_eq_right ht]
      have e3 : (block.drop t).take (len - t) = block.drop t :=
        List.take_of_length_le (by rw [List.length_drop]; omega)
      have e4 : (List.replicate t (0 : Nat) ++ block.drop t).drop t =
          block.drop t :=
        List.drop_left' (List.length_replicate t 0)
      rw [e1, e2, e3, e4]
      exact List.take_append_drop t block
    | cons l2 r2 =>
      simp only [List.sum_cons] at h
      simp only [extract_base_and_deviation_multi,
        merge_base_and_deviation_multi]
      set t := len / 2 with hts
      set e := extract_base_and_deviation_multi (l2 :: r2) (block.drop len)
        with hes
      have ht : t ≤ len := Nat.div_le_self _ _
      have hlen : len ≤ block.length := by omega
      have hbt : (block.take t).length = t := by
        rw [List.length_take]; omega
      have hB : ((block.take len).drop t).length = len - t := by
        rw [List.length_drop, List.length_take]; omega
      have f1 : (block.take t ++ e.2).take t = block.take t :=
        List.take_left' hbt
      have f2 : (block.take t ++ e.2).drop t = e.2 :=
        List.drop_left' hbt
      have hAB : (List.replicate t (0 : Nat) ++
            (block.take len).drop t).length = len := by
        rw [List.length_append, List.length_replicate, hB]; omega
      have f3 : ((List.replicate t (0 : Nat) ++
            (block.take len).drop t) ++ e.1).take len =
          List.replicate t 0 ++ (block.take len).drop t :=
        List.take_left' hAB
      have f4 : (List.replicate t (0 : Nat) ++
            (block.take len).drop t).drop t = (block.take len).drop t :=
        List.drop_left' (List.length_replicate t 0)
      have f5 : ((List.replicate t (0 : Nat) ++
            (block.take len).drop t) ++ e.1).drop len = e.1 :=
        List.drop_left' hAB
      have hrec : (merge_base_and_deviation_multi (l2 :: r2) e.1 e.2).1 =
          block.drop len := by
        rw [hes]
        exact ih (block.drop len)
          (by rw [List.length_drop, List.sum_cons]; omega)
      rw [f1, f3, f4, f5, f2, hrec]
      have g1 : block.take t = (block.take len).take t := by
        rw [List.take_take, Nat.min_eq_left ht]
      rw [g1, List.take_append_drop, List.take_append_drop]

theorem compute_dev_len_multi_pos (seg_sizes : List Nat)
    (h1 : seg_sizes ≠ []) (h2 : ∀ s ∈ seg_sizes, 1 ≤ s) :
    1 ≤ compute_dev_len_multi seg_sizes := by
  induction seg_sizes with
  | nil => exact absurd rfl h1
  | cons len rest ih =>
    cases rest with
    | nil =>
      have := h2 len (by simp)
      simp only [compute_dev_len_multi]
      omega
    | cons l2 r2 =>
      have := ih (by simp) (fun s hs => h2 s (by simp [hs]))
      simp only [compute_dev_len_multi]
      omega

/- ============================================================
   Dictionary lemmas
   ============================================================ -/

theorem dict_find_from_neg (bs : Nat) (blocks : List (List Nat))
    (b : List Nat) (i : Nat) :
    dict_find_from bs blocks b i = -1 ↔
      ∀ e ∈ blocks, e.take bs ≠ b.take bs := by
  induction blocks generalizing i with
  | nil => simp [dict_find_from]
  | cons e rest ih =>
    simp only [dict_find_from]
    by_cases hc : e.take bs = b.take bs
    · rw [if_pos hc]
      constructor
      · intro hh; exact absurd hh (by omega)
      · intro hh; exact absurd hc (hh e (by simp))
    · rw [if_neg hc, ih]
      constructor
      · intro hh e2 he2
        rcases List.mem_cons.mp he2 with h1 | h2
        · rw [h1]; exact hc
        · exact hh e2 h2
      · intro hh e2 he2
        exact hh e2 (by simp [he2])

theorem dict_find_from_pos (bs : Nat) (blocks : List (List Nat))
    (b : List Nat) (i : Nat) (n : Int)
    (h : dict_find_from bs blocks b i = n) (hn : n ≠ -1) :
    ∃ j : Nat, j < blocks.length ∧ n = ((i + j : Nat) : Int) ∧
      (blocks.getD j []).take bs = b.take bs := by
  induction blocks generalizing i with
  | nil =>
    simp only [dict_find_from] at h
    exact absurd h.symm hn
  | cons e rest ih =>
    simp only [dict_find_from] at h
    by_cases hc : e.take bs = b.take bs
    · rw [if_pos hc] at h
      refine ⟨0, by simp, ?_, by simpa using hc⟩
      rw [← h]; simp
    · rw [if_neg hc] at h
      obtain ⟨j, hj1, hj2, hj3⟩ := ih (i + 1) h
      refine ⟨j + 1, by simpa using hj1, ?_, by simpa using hj3⟩
      rw [hj2]; push_cast; ring

theorem dict_find_neg (bs : Nat) (blocks : List (List Nat)) (b : List Nat) :
    dict_find bs blocks b = -1 ↔ ∀ e ∈ blocks, e.take bs ≠ b.take bs :=
  dict_find_from_neg bs blocks b 0

theorem dict_find_pos (bs : Nat) (blocks : List (List Nat)) (b : List Nat)
    (hn : dict_find bs blocks b ≠ -1) :
    (dict_find bs blocks b).toNat < blocks.length ∧
      (blocks.getD (dict_find bs blocks b).toNat []).take bs = b.take bs := by
  obtain ⟨j, hj1, hj2, hj3⟩ :=
    dict_find_from_pos bs blocks b 0 (dict_find bs blocks b) rfl hn
  have : (dict_find bs blocks b).toNat = j := by omega
  rw [this]
  exact ⟨hj1, hj3⟩

theorem getD_snoc (l : List (List Nat)) (x : List Nat) :
    (l ++ [x]).getD l.length [] = x := by
  rw [List.getD_eq_getElem?_getD, List.getElem?_concat_length]
  rfl

/- ============================================================
   Encoder-loop invariant
   ============================================================ -/

theorem encode_blocks_sound (seg_sizes : List Nat) (bb dev_len : Nat)
    (blks : List (List Nat)) (dict0 : List (List Nat))
    (hbb : bb = seg_sizes.sum)
    (hdl : dev_len = compute_dev_len_multi seg_sizes)
    (hblks : ∀ blk ∈ blks, blk.length = bb)
    (hd0 : ∀ e ∈ dict0, e.length = bb) :
    ∃ dictF ids devS,
      encode_blocks seg_sizes bb dev_len dict0 blks =
        some (dictF, ids, devS) ∧
      (∃ dnew, dictF = dict0 ++ dnew) ∧
      (∀ e ∈ dictF, e.length = bb) ∧
      dictF.length ≤ dict0.length + blks.length ∧
      ids.length = blks.length ∧
      devS = (blks.map
        (fun blk => (extract_base_and_deviation_multi seg_sizes blk).2)).flatten ∧
      List.Forall₂ (fun id blk => id < dictF.length ∧
          dictF.getD id [] =
            (extract_base_and_deviation_multi seg_sizes blk).1)
        ids blks := by
  induction blks generalizing dict0 with
  | nil =>
    exact ⟨dict0, [], [], rfl, ⟨[], by simp⟩, hd0, by simp, rfl, by simp,
      List.Forall₂.nil⟩
  | cons blk rest ih =>
    have hblk : blk.length = bb := hblks blk (by simp)
    have hsum : seg_sizes.sum ≤ blk.length := by rw [hblk, hbb]
    set e := extract_base_and_deviation_multi seg_sizes blk with hes
    have hlen2 : e.2.length = dev_len := by
      rw [hes, extract_dev_length seg_sizes blk hsum, hdl]
    have hlen1 : e.1.length = bb := by
      rw [hes, extract_base_length seg_sizes blk hsum, hblk]
    have htake : e.1.take bb = e.1 :=
      List.take_of_length_le (by rw [hlen1])
    have hifdev : ¬(e.2.length ≠ dev_len) := by simp [hlen2]
    by_cases hf : dict_find bb dict0 e.1 = -1
    · -- base absent: dict_add appends it at index dict0.length
      have hd1 : ∀ x ∈ dict0 ++ [e.1], x.length = bb := by
        intro x hx
        rcases List.mem_append.mp hx with h1 | h2
        · exact hd0 x h1
        · rw [List.mem_singleton.mp h2]; exact hlen1
      obtain ⟨dictF, ids, devS, heqr, ⟨dnew, hdnew⟩, hdF, hle, hids, hdev,
        hrel⟩ := ih (dict0 ++ [e.1]) (fun b hb => hblks b (by simp [hb])) hd1
      refine ⟨dictF, dict0.length :: ids, e.2 ++ devS, ?_,
        ⟨[e.1] ++ dnew, by rw [hdnew, List.append_assoc]⟩, hdF,
        by simp at hle ⊢; omega, by simp [hids], by simp [hdev], ?_⟩
      · simp only [encode_blocks, ← hes, if_pos hf, dict_add, htake, heqr,
          if_neg hifdev]
      · refine List.forall₂_cons.mpr ⟨⟨?_, ?_⟩, hrel⟩
        · rw [hdnew]; simp
        · rw [hdnew, List.getD_append _ _ _ _ (by simp), getD_snoc]
    · -- base present at index (dict_find …).toNat
      obtain ⟨hidx, hfind⟩ := dict_find_pos bb dict0 e.1 hf
      obtain ⟨dictF, ids, devS, heqr, ⟨dnew, hdnew⟩, hdF, hle, hids, hdev,
        hrel⟩ := ih dict0 (fun b hb => hblks b (by simp [hb])) hd0
      have hentry : dict0.getD (dict_find bb dict0 e.1).toNat [] = e.1 := by
        have hmem : dict0.getD (dict_find bb dict0 e.1).toNat [] ∈ dict0 := by
          rw [List.getD_eq_getElem _ _ hidx]
          exact List.getElem_mem _
        have hlene : (dict0.getD (dict_find bb dict0 e.1).toNat []).length =
            bb := hd0 _ hmem
        have ht2 : (dict0.getD (dict_find bb dict0 e.1).toNat []).take bb =
            dict0.getD (dict_find bb dict0 e.1).toNat [] :=
          List.take_of_length_le (by rw [hlene])
        rw [← ht2, hfind]; exact htake
      refine ⟨dictF, (dict_find bb dict0 e.1).toNat :: ids, e.2 ++ devS, ?_,
        ⟨dnew, hdnew⟩, hdF, by simp at hle ⊢; omega, by simp [hids],
        by simp [hdev], ?_⟩
      · simp only [encode_blocks, ← hes, if_neg hf, heqr, if_neg hifdev]
      · refine List.forall₂_cons.mpr ⟨⟨?_, ?_⟩, hrel⟩
        · rw [hdnew]; simp; omega
        · rw [hdnew, List.getD_append _ _ _ _ hidx, hentry]

/- ============================================================
   Decoder-loop soundness
   ============================================================ -/

theorem copy_exact_eq {l : List Nat} {n : Nat} (h : l.length = n) :
    copy_exact n l = l := by
  unfold copy_exact
  rw [List.take_of_length_le (by omega), h, Nat.sub_self,
    List.replicate_zero, List.append_nil]

theorem decode_loop_multi_sound (bb : Nat) (seg_sizes : List Nat)
    (dict : List (List Nat)) (dev_len : Nat)
    (ids : List Nat) (blks : List (List Nat))
    (hbb : bb = seg_sizes.sum)
    (hdl : dev_len = compute_dev_len_multi seg_sizes)
    (hblks : ∀ blk ∈ blks, blk.length = bb)
    (hrel : List.Forall₂ (fun id blk => id < dict.length ∧
        dict.getD id [] =
          (extract_base_and_deviation_multi seg_sizes blk).1) ids blks) :
    decode_loop_multi bb seg_sizes dict dev_len true ids
      ((blks.map
        (fun blk => (extract_base_and_deviation_multi seg_sizes blk).2)).flatten) =
      some blks.flatten := by
  induction ids generalizing blks with
  | nil =>
    cases hrel
    rfl
  | cons id ids ih =>
    cases blks with
    | nil => exact absurd hrel (by simp)
    | cons b bs =>
      obtain ⟨hab, htail⟩ := List.forall₂_cons.mp hrel
      have hb : b.length = bb := hblks b (by simp)
      have hsum : seg_sizes.sum ≤ b.length := by rw [hb, hbb]
      have hdev2 : (extract_base_and_deviation_multi seg_sizes b).2.length =
          dev_len := by
        rw [extract_dev_length _ _ hsum, hdl]
      have hflat : ((b :: bs).map
          (fun blk => (extract_base_and_deviation_multi seg_sizes blk).2)).flatten =
          (extract_base_and_deviation_multi seg_sizes b).2 ++
          ((bs.map
            (fun blk => (extract_base_and_deviation_multi seg_sizes blk).2)).flatten) := by
        simp
      rw [hflat]
      simp only [decode_loop_multi]
      rw [if_neg (by omega)]
      have htk : ((extract_base_and_deviation_multi seg_sizes b).2 ++
          ((bs.map
            (fun blk => (extract_base_and_deviation_multi seg_sizes blk).2)).flatten)).take
          dev_len = (extract_base_and_deviation_multi seg_sizes b).2 :=
        List.take_left' hdev2
      have hdp : ((extract_base_and_deviation_multi seg_sizes b).2 ++
          ((bs.map
            (fun blk => (extract_base_and_deviation_multi seg_sizes blk).2)).flatten)).drop
          dev_len =
          ((bs.map
            (fun blk => (extract_base_and_deviation_multi seg_sizes blk).2)).flatten) :=
        List.drop_left' hdev2
      simp only [htk, hdp, if_true, true_and]
      have hm2 : (merge_base_and_deviation_multi seg_sizes (dict.getD id [])
          (extract_base_and_deviation_multi seg_sizes b).2).2 = dev_len := by
        rw [merge_dev_off, hdl]
      have hm1 : (merge_base_and_deviation_multi seg_sizes (dict.getD id [])
          (extract_base_and_deviation_multi seg_sizes b).2).1 = b := by
        rw [hab.2]
        exact merge_extract seg_sizes b (by rw [hb, hbb])
      rw [if_neg (by rw [hm2]; simp),
        ih bs (fun blk hblk => hblks blk (by simp [hblk])) htail]
      simp [hm1, copy_exact_eq hb]
      rw [← List.getD_eq_getElem?_getD, hm1]
      exact copy_exact_eq hb

/- ============================================================
   Chunking and auxiliary lemmas
   ============================================================ -/

theorem chunk_blocks_length_mem (k bb : Nat) (xs : List Nat)
    (h : k * bb ≤ xs.length) :
    ∀ blk ∈ chunk_blocks k bb xs, blk.length = bb := by
  induction k generalizing xs with
  | zero => simp [chunk_blocks]
  | succ k ih =>
    intro blk hblk
    simp only [chunk_blocks, List.mem_cons] at hblk
    rcases hblk with h1 | h2
    · rw [h1, List.length_take]
      have : bb ≤ xs.length := by
        have := Nat.succ_mul k bb ▸ h
        omega
      omega
    · refine ih (xs.drop bb) ?_ blk h2
      rw [List.length_drop]
      have hs := Nat.succ_mul k bb ▸ h
      omega

theorem chunk_blocks_count (k bb : Nat) (xs : List Nat) :
    (chunk_blocks k bb xs).length = k := by
  induction k generalizing xs with
  | zero => rfl
  | succ k ih => simp [chunk_blocks, ih]

theorem chunk_blocks_flatten (k bb : Nat) (xs : List Nat)
    (h : k * bb ≤ xs.length) :
    (chunk_blocks k bb xs).flatten = xs.take (k * bb) := by
  induction k generalizing xs with
  | zero => simp [chunk_blocks]
  | succ k ih =>
    have hs := Nat.succ_mul k bb ▸ h
    simp only [chunk_blocks, List.flatten_cons]
    rw [ih (xs.drop bb) (by rw [List.length_drop]; omega)]
    have hmul : (k + 1) * bb = bb + k * bb := by ring
    rw [hmul, List.take_add]

theorem flatten_const_length {L : List (List Nat)} {f : List Nat → List Nat}
    {d : Nat} (h : ∀ x ∈ L, (f x).length = d) :
    (L.map f).flatten.length = L.length * d := by
  induction L with
  | nil => simp
  | cons x L ih =>
    simp only [List.map_cons, List.flatten_cons, List.length_append,
      List.length_cons]
    rw [h x (by simp), ih (fun y hy => h y (by simp [hy]))]
    ring

theorem read_bytes_all {xs : List Nat} {n : Nat} (h : xs.length = n) :
    read_bytes n xs = some (xs, []) := by
  unfold read_bytes
  rw [if_pos (by omega), List.take_of_length_le (by omega),
    List.drop_eq_nil_of_le (by omega)]

theorem forall₂_mem_left {R : Nat → List Nat → Prop}
    {l1 : List Nat} {l2 : List (List Nat)} (h : List.Forall₂ R l1 l2) :
    ∀ x ∈ l1, ∃ y ∈ l2, R x y := by
  induction h with
  | nil => simp
  | cons hab htail ih =>
    intro x hx
    rcases List.mem_cons.mp hx with h1 | h2
    · exact ⟨_, by simp, h1 ▸ hab⟩
    · obtain ⟨y, hy, hR⟩ := ih x h2
      exact ⟨y, by simp [hy], hR⟩

theorem sum_pos_of_mem {l : List Nat} (h1 : l ≠ [])
    (h2 : ∀ s ∈ l, 0 < s) : 0 < l.sum := by
  cases l with
  | nil => exact absurd rfl h1
  | cons a t =>
    have := h2 a (by simp)
    simp only [List.sum_cons]
    omega

/- ============================================================
   Round-trip: compress then decompress
   ============================================================ -/

theorem compress_decompress_general (seg_sizes input : List Nat)
    (h1 : seg_sizes ≠ [])
    (h2 : ∀ s ∈ seg_sizes, 0 < s)
    (h3 : seg_sizes.length < 2 ^ 31)
    (h4 : seg_sizes.sum < 2 ^ 32)
    (h5 : ∀ s ∈ seg_sizes, s < 2 ^ 31)
    (h6 : seg_sizes.sum ≤ input.length)
    (h7 : input.length / seg_sizes.sum < 2 ^ 32) :
    ∃ F, compress_file_multi seg_sizes input = some F ∧
      decompress_file F =
        some (input.take (input.length / seg_sizes.sum * seg_sizes.sum)) := by
  set bb := seg_sizes.sum with hbbs
  have hbbpos : 0 < bb := sum_pos_of_mem h1 h2
  set nb := input.length / bb with hnbs
  have hnb1 : 1 ≤ nb := (Nat.one_le_div_iff hbbpos).mpr h6
  have hnble : nb * bb ≤ input.length := Nat.div_mul_le_self _ _
  have hanyz : seg_sizes.any (· = 0) = false := by
    simp only [List.any_eq_false, decide_eq_true_eq]
    intro x hx
    have := h2 x hx
    omega
  have hcbb : compute_block_bytes_multi seg_sizes = bb := by
    unfold compute_block_bytes_multi
    rw [hanyz]
    simp
  set chunks := chunk_blocks nb bb input with hcks
  have hchl : ∀ blk ∈ chunks, blk.length = bb :=
    chunk_blocks_length_mem nb bb input hnble
  have hchc : chunks.length = nb := chunk_blocks_count nb bb input
  obtain ⟨dictF, ids, devS, heq, ⟨dnew, hdnew⟩, hdF, hdle, hids, hdev, hrel⟩ :=
    encode_blocks_sound seg_sizes bb (compute_dev_len_multi seg_sizes)
      chunks [] hbbs rfl hchl (by simp)
  have hdlen : dictF.length ≤ nb := by
    simpa [hchc] using hdle
  set F := ddp2_magic ++ write_u32_le bb ++ write_u32_le seg_sizes.length ++
    write_u32_le dictF.length ++ write_u32_le nb ++
    (seg_sizes.map write_u32_le).flatten ++ dictF.flatten ++
    (ids.map write_u32_le).flatten ++ devS with hFs
  have hcomp : compress_file_multi seg_sizes input = some F := by
    unfold compress_file_multi
    rw [if_neg (by simp [List.length_eq_zero]; exact h1), hcbb,
      if_neg (by omega), if_neg (by omega), ← hnbs,
      if_neg (by omega), ← hcks]
    simp only [heq]
  have hFr : F = ddp2_magic ++ (write_u32_le bb ++
      (write_u32_le seg_sizes.length ++ (write_u32_le dictF.length ++
      (write_u32_le nb ++ ((seg_sizes.map write_u32_le).flatten ++
      (dictF.flatten ++ ((ids.map write_u32_le).flatten ++ devS))))))) := by
    rw [hFs]
    simp [List.append_assoc]
  have hr1 : read_bytes 4 F = some (ddp2_magic, write_u32_le bb ++
      (write_u32_le seg_sizes.length ++ (write_u32_le dictF.length ++
      (write_u32_le nb ++ ((seg_sizes.map write_u32_le).flatten ++
      (dictF.flatten ++ ((ids.map write_u32_le).flatten ++ devS))))))) := by
    rw [hFr]
    exact read_bytes_exact (show ddp2_magic.length = 4 from rfl) _
  have hr2 := read_write_u32_lt (show bb < 2 ^ 32 from h4)
    (write_u32_le seg_sizes.length ++ (write_u32_le dictF.length ++
      (write_u32_le nb ++ ((seg_sizes.map write_u32_le).flatten ++
      (dictF.flatten ++ ((ids.map write_u32_le).flatten ++ devS))))))
  have hr3 := read_write_u32_lt
    (show seg_sizes.length < 2 ^ 32 by omega)
    (write_u32_le dictF.length ++ (write_u32_le nb ++
      ((seg_sizes.map write_u32_le).flatten ++
      (dictF.flatten ++ ((ids.map write_u32_le).flatten ++ devS)))))
  have hr4 := read_write_u32_lt
    (show dictF.length < 2 ^ 32 by omega)
    (write_u32_le nb ++ ((seg_sizes.map write_u32_le).flatten ++
      (dictF.flatten ++ ((ids.map write_u32_le).flatten ++ devS))))
  have hr5 := read_write_u32_lt (show nb < 2 ^ 32 from h7)
    ((seg_sizes.map write_u32_le).flatten ++
      (dictF.flatten ++ ((ids.map write_u32_le).flatten ++ devS)))
  have hr6 := read_u32_list_roundtrip seg_sizes
    (fun v hv => lt_trans (h5 v hv) (by norm_num))
    (dictF.flatten ++ ((ids.map write_u32_le).flatten ++ devS))
  have hr7 := read_blocks_roundtrip dictF hdF
    ((ids.map write_u32_le).flatten ++ devS)
  have hid32 : ∀ id ∈ ids, id < 2 ^ 32 := by
    intro id hid
    obtain ⟨blk, _, hR⟩ := forall₂_mem_left hrel id hid
    have := hR.1
    omega
  have hr8 : read_u32_list nb ((ids.map write_u32_le).flatten ++ devS) =
      some (ids, devS) := by
    have := read_u32_list_roundtrip ids hid32 devS
    rw [hids, hchc] at this
    exact this
  have hdevl : devS.length = nb * compute_dev_len_multi seg_sizes := by
    rw [hdev, flatten_const_length (fun blk hblk =>
      extract_dev_length seg_sizes blk (by rw [hchl blk hblk, hbbs])), hchc]
  have hr9 : read_bytes (nb * compute_dev_len_multi seg_sizes) devS =
      some (devS, []) := read_bytes_all hdevl
  have hguard : ¬(seg_sizes.length = 0 ∨ 2 ^ 31 ≤ seg_sizes.length) := by
    push_neg
    refine ⟨?_, by omega⟩
    simpa [List.length_eq_zero] using h1
  have hparse : parse_ddp2 F =
      some ⟨bb, seg_sizes, dictF.length, nb, dictF, ids, devS⟩ := by
    simp only [parse_ddp2, hr1, hr2, hr3, hr4, hr5, hr6, hr7, hr8, hr9,
      if_neg hguard]
    simp
  have hdl1 : 1 ≤ compute_dev_len_multi seg_sizes :=
    compute_dev_len_multi_pos seg_sizes h1 (fun s hs => h2 s hs)
  have hdecide : decide (0 < nb * compute_dev_len_multi seg_sizes) = true := by
    rw [decide_eq_true_eq]
    exact Nat.mul_pos (by omega) (by omega)
  have hdecode : decode_ddp2 ⟨bb, seg_sizes, dictF.length, nb, dictF, ids,
      devS⟩ = some (input.take (nb * bb)) := by
    simp only [decode_ddp2, hdecide]
    rw [hdev,
      decode_loop_multi_sound bb seg_sizes dictF
        (compute_dev_len_multi seg_sizes) ids chunks hbbs rfl hchl hrel,
      chunk_blocks_flatten nb bb input hnble]
  have hdm : decompress_file_multi F = some (input.take (nb * bb)) := by
    simp only [decompress_file_multi, hparse]
    exact hdecode
  refine ⟨F, hcomp, ?_⟩
  simp only [decompress_file, hr1]
  rw [if_neg (by decide), if_true]
  exact hdm

/- ============================================================
   Parse inversion and decoder rejection lemmas
   ============================================================ -/

theorem read_blocks_length {n bb : Nat} {xs : List Nat}
    {res : List (List Nat)} {r : List Nat}
    (h : read_blocks n bb xs = some (res, r)) : res.length = n := by
  induction n generalizing xs res r with
  | zero =>
    simp only [read_blocks, Option.some.injEq, Prod.mk.injEq] at h
    rw [← h.1]
    rfl
  | succ n ih =>
    simp only [read_blocks] at h
    split at h
    · exact Option.noConfusion h
    next b r1 heq =>
      split at h
      · exact Option.noConfusion h
      next bs2 r2 heq2 =>
        simp only [Option.some.injEq, Prod.mk.injEq] at h
        rw [← h.1, List.length_cons, ih heq2]
  

theorem read_u32_list_length {n : Nat} {xs vs r : List Nat}
    (h : read_u32_list n xs = some (vs, r)) : vs.length = n := by
  induction n generalizing xs vs r with
  | zero =>
    simp only [read_u32_list, Option.some.injEq, Prod.mk.injEq] at h
    rw [← h.1]
    rfl
  | succ n ih =>
    simp only [read_u32_list] at h
    split at h
    · exact Option.noConfusion h
    next v r1 heq =>
      split at h
      · exact Option.noConfusion h
      next vs2 r2 heq2 =>
        simp only [Option.some.injEq, Prod.mk.injEq] at h
        rw [← h.1, List.length_cons, ih heq2]

theorem parse_ddp2_inv (f : List Nat) (s : Ddp2Segment)
    (hp : parse_ddp2 f = some s) :
    s.dict.length = s.dict_size ∧ s.ids.length = s.num_blocks := by
  simp only [parse_ddp2] at hp
  split at hp
  · exact Option.noConfusion hp
  next magic r0 heq0 =>
    split at hp
    · exact Option.noConfusion hp
    next hmagic =>
      split at hp
      · exact Option.noConfusion hp
      next bbv r1 heq1 =>
        split at hp
        · exact Option.noConfusion hp
        next nsv r2 heq2 =>
          split at hp
          · exact Option.noConfusion hp
          next dsv r3 heq3 =>
            split at hp
            · exact Option.noConfusion hp
            next nbv r4 heq4 =>
              split at hp
              · exact Option.noConfusion hp
              next hguard =>
                split at hp
                · exact Option.noConfusion hp
                next segs r5 heq5 =>
                  split at hp
                  · exact Option.noConfusion hp
                  next dict r6 heq6 =>
                    split at hp
                    · exact Option.noConfusion hp
                    next ids r7 heq7 =>
                      split at hp
                      · exact Option.noConfusion hp
                      next dev r8 heq8 =>
                        injection hp with hp
                        subst hp
                        exact ⟨read_blocks_length heq6,
                          read_u32_list_length heq7⟩

theorem decode_loop_multi_overflow (bb : Nat) (seg_sizes : List Nat)
    (dict : List (List Nat)) (dev_len : Nat) (use_dev : Bool)
    (ids dev : List Nat) (h : ∃ id ∈ ids, dict.length ≤ id) :
    decode_loop_multi bb seg_sizes dict dev_len use_dev ids dev = none := by
  induction ids generalizing dev with
  | nil => simp at h
  | cons id rest ih =>
    obtain ⟨x, hx, hge⟩ := h
    rcases List.mem_cons.mp hx with h1 | h2
    · subst h1
      simp only [decode_loop_multi]
      rw [if_pos hge]
    · simp only [decode_loop_multi]
      by_cases hc : dict.length ≤ id
      · rw [if_pos hc]
      · rw [if_neg hc]
        simp [ih (dev.drop dev_len) ⟨x, h2, hge⟩]

/- ============================================================
   Dictionary-content invariant of the encoder
   ============================================================ -/

theorem dict_find_entry (bb : Nat) (dict0 : List (List Nat)) (b : List Nat)
    (hd0 : ∀ e ∈ dict0, e.length = bb) (hb : b.length = bb)
    (hf : dict_find bb dict0 b ≠ -1) :
    (dict_find bb dict0 b).toNat < dict0.length ∧
      dict0.getD (dict_find bb dict0 b).toNat [] = b ∧ b ∈ dict0 := by
  obtain ⟨hidx, hfind⟩ := dict_find_pos bb dict0 b hf
  have hmem : dict0.getD (dict_find bb dict0 b).toNat [] ∈ dict0 := by
    rw [List.getD_eq_getElem _ _ hidx]
    exact List.getElem_mem _
  have hlene := hd0 _ hmem
  have ht2 : (dict0.getD (dict_find bb dict0 b).toNat []).take bb =
      dict0.getD (dict_find bb dict0 b).toNat [] :=
    List.take_of_length_le (by rw [hlene])
  have htb : b.take bb = b := List.take_of_length_le (by rw [hb])
  have hentry : dict0.getD (dict_find bb dict0 b).toNat [] = b := by
    rw [← ht2, hfind, htb]
  exact ⟨hidx, hentry, hentry ▸ hmem⟩

theorem dict_find_neg_not_mem (bb : Nat) (dict0 : List (List Nat))
    (b : List Nat) (hf : dict_find bb dict0 b = -1) : b ∉ dict0 := by
  intro hmem
  exact (dict_find_neg bb dict0 b).mp hf b hmem rfl

theorem encode_blocks_dict_set (seg_sizes : List Nat) (bb dev_len : Nat)
    (blks : List (List Nat)) (dict0 dictF : List (List Nat))
    (ids devS : List Nat)
    (hbb : bb = seg_sizes.sum)
    (hblks : ∀ blk ∈ blks, blk.length = bb)
    (hd0 : ∀ e ∈ dict0, e.length = bb)
    (heq : encode_blocks seg_sizes bb dev_len dict0 blks =
      some (dictF, ids, devS)) :
    (dict0.Nodup → dictF.Nodup) ∧
    (∀ x, x ∈ dictF ↔ x ∈ dict0 ∨
      ∃ blk ∈ blks, x = (extract_base_and_deviation_multi seg_sizes blk).1) := by
  induction blks generalizing dict0 ids devS with
  | nil =>
    simp only [encode_blocks, Option.some.injEq, Prod.mk.injEq] at heq
    obtain ⟨h1, _, _⟩ := heq
    subst h1
    exact ⟨fun h => h, fun x => by simp⟩
  | cons blk rest ih =>
    have hblk : blk.length = bb := hblks blk (by simp)
    have hsum : seg_sizes.sum ≤ blk.length := by rw [hblk, hbb]
    have hlen1 : (extract_base_and_deviation_multi seg_sizes blk).1.length =
        bb := by
      rw [extract_base_length seg_sizes blk hsum, hblk]
    have htake : (extract_base_and_deviation_multi seg_sizes blk).1.take bb =
        (extract_base_and_deviation_multi seg_sizes blk).1 :=
      List.take_of_length_le (by rw [hlen1])
    simp only [encode_blocks] at heq
    split at heq
    · exact Option.noConfusion heq
    next hdevck =>
      split at heq
      · exact Option.noConfusion heq
      next dictF2 ids2 devS2 heqr =>
        simp only [Option.some.injEq, Prod.mk.injEq] at heq
        obtain ⟨hd, _, _⟩ := heq
        subst hd
        by_cases hf : dict_find bb dict0
            (extract_base_and_deviation_multi seg_sizes blk).1 = -1
        · rw [if_pos hf] at heqr
          simp only [dict_add, htake] at heqr
          have hnotmem := dict_find_neg_not_mem bb dict0
            (extract_base_and_deviation_multi seg_sizes blk).1 hf
          have hd1 : ∀ e ∈ dict0 ++
              [(extract_base_and_deviation_multi seg_sizes blk).1],
              e.length = bb := by
            intro e he
            rcases List.mem_append.mp he with h1 | h2
            · exact hd0 e h1
            · rw [List.mem_singleton.mp h2]
              exact hlen1
          obtain ⟨hnd, hmem⟩ := ih
            (dict0 ++ [(extract_base_and_deviation_multi seg_sizes blk).1])
            ids2 devS2 (fun b hb => hblks b (by simp [hb])) hd1 heqr
          constructor
          · intro hnd0
            exact hnd (by simp [List.nodup_append, hnd0, hnotmem])
          · intro x
            rw [hmem x]
            constructor
            · rintro (h1 | ⟨b2, hb2, hx2⟩)
              · rcases List.mem_append.mp h1 with h2 | h3
                · exact Or.inl h2
                · exact Or.inr ⟨blk, by simp, List.mem_singleton.mp h3⟩
              · exact Or.inr ⟨b2, by simp [hb2], hx2⟩
            · rintro (h1 | ⟨b2, hb2, hx2⟩)
              · exact Or.inl (List.mem_append.mpr (Or.inl h1))
              · rcases List.mem_cons.mp hb2 with h3 | h4
                · refine Or.inl (List.mem_append.mpr (Or.inr ?_))
                  rw [hx2, h3]
                  exact List.mem_singleton.mpr rfl
                · exact Or.inr ⟨b2, h4, hx2⟩
        · simp only [if_neg hf] at heqr
          obtain ⟨_, _, hbmem⟩ := dict_find_entry bb dict0
            (extract_base_and_deviation_multi seg_sizes blk).1 hd0
            hlen1 hf
          obtain ⟨hnd, hmem⟩ := ih dict0 ids2 devS2
            (fun b hb => hblks b (by simp [hb])) hd0 heqr
          refine ⟨hnd, fun x => ?_⟩
          rw [hmem x]
          constructor
          · rintro (h1 | ⟨b2, hb2, hx2⟩)
            · exact Or.inl h1
            · exact Or.inr ⟨b2, by simp [hb2], hx2⟩
          · rintro (h1 | ⟨b2, hb2, hx2⟩)
            · exact Or.inl h1
            · rcases List.mem_cons.mp hb2 with h3 | h4
              · exact Or.inl (by rw [hx2, h3]; exact hbmem)
              · exact Or.inr ⟨b2, h4, hx2⟩

/- ============================================================
   Code-vs-spec deviation positions and encoder-output structure
   ============================================================ -/

theorem extract_dev_eq_spec (seg_sizes block : List Nat) :
    (extract_base_and_deviation_multi seg_sizes block).2 =
      dev_bytes_spec seg_sizes block := by
  induction seg_sizes generalizing block with
  | nil => rfl
  | cons len rest ih =>
    cases rest with
    | nil =>
      simp only [extract_base_and_deviation_multi, dev_bytes_spec]
      have h : len / 2 + len % 2 =
          len / 2 + (if len % 2 = 1 then 1 else 0) := by
        rcases Nat.mod_two_eq_zero_or_one len with h | h <;> simp [h]
      rw [h]
    | cons l2 r2 =>
      simp only [extract_base_and_deviation_multi, dev_bytes_spec, ih]

theorem flatten_length_const {L : List (List Nat)} {d : Nat}
    (h : ∀ x ∈ L, x.length = d) : L.flatten.length = L.length * d := by
  induction L with
  | nil => simp
  | cons x L ih =>
    simp only [List.flatten_cons, List.length_append, List.length_cons]
    rw [h x (by simp), ih (fun y hy => h y (by simp [hy]))]
    ring

theorem compress_file_multi_inv (seg_sizes input F : List Nat)
    (hF : compress_file_multi seg_sizes input = some F) :
    seg_sizes ≠ [] ∧ (∀ s ∈ seg_sizes, 0 < s) ∧
    seg_sizes.sum ≤ input.length ∧
    ∃ dictF ids devS,
      encode_blocks seg_sizes seg_sizes.sum (compute_dev_len_multi seg_sizes)
        [] (chunk_blocks (input.length / seg_sizes.sum) seg_sizes.sum input) =
        some (dictF, ids, devS) ∧
      F = ddp2_magic ++ write_u32_le seg_sizes.sum ++
        write_u32_le seg_sizes.length ++ write_u32_le dictF.length ++
        write_u32_le (input.length / seg_sizes.sum) ++
        (seg_sizes.map write_u32_le).flatten ++ dictF.flatten ++
        (ids.map write_u32_le).flatten ++ devS := by
  simp only [compress_file_multi] at hF
  split at hF
  · exact Option.noConfusion hF
  next hne =>
    split at hF
    · exact Option.noConfusion hF
    next hbb0 =>
      by_cases hz : seg_sizes.any (· = 0) = true
      · exfalso
        apply hbb0
        unfold compute_block_bytes_multi
        rw [if_pos hz]
      · have hz' : seg_sizes.any (· = 0) = false := by
          revert hz
          cases seg_sizes.any (· = 0) <;> simp
        have hcbb : compute_block_bytes_multi seg_sizes = seg_sizes.sum := by
          unfold compute_block_bytes_multi
          rw [hz']
          simp
        have hpos : ∀ s ∈ seg_sizes, 0 < s := by
          intro s hs
          have := (List.any_eq_false.mp hz') s hs
          simp only [decide_eq_true_eq] at this
          omega
        rw [hcbb] at hF
        split at hF
        · exact Option.noConfusion hF
        next hlt =>
          split at hF
          · exact Option.noConfusion hF
          next hnb0 =>
            split at hF
            · exact Option.noConfusion hF
            next dictF ids devS heq =>
              injection hF with hF
              exact ⟨fun hh => hne (by rw [hh]; rfl), hpos, by omega,
                dictF, ids, devS, heq, hF.symm⟩

theorem flatten_map_u32_length (vs : List Nat) :
    ((vs.map write_u32_le).flatten).length = 4 * vs.length := by
  induction vs with
  | nil => simp
  | cons v vs ih =>
    simp only [List.map_cons, List.flatten_cons, List.length_append,
      write_u32_le_length, ih, List.length_cons]
    ring

/- ============================================================
   Claim theorems
   ============================================================ -/

set_option maxRecDepth 100000
set_option maxHeartbeats 4000000

/-- Claim C1 (round-trip): for every input whose length is a positive
multiple `k * block_bytes` of the declared block size
(`block_bytes = Σ seg_sizes`), encoding with `compress_file_multi` and
decoding the produced segment with `decompress_file` yields exactly the
input bytes.  `compress_file_multi` emits exactly one segment file per
call, so decoding-and-concatenating every produced segment is this one
decode.  The size hypotheses keep every header field inside the u32
wire range (segment sizes and their count are C `int`s, hence below
`2^31`). -/
theorem claim_c1_roundtrip (seg_sizes input : List Nat) (k : Nat)
    (h1 : seg_sizes ≠ []) (h2 : ∀ s ∈ seg_sizes, 0 < s)
    (h3 : seg_sizes.length < 2 ^ 31) (h4 : seg_sizes.sum < 2 ^ 32)
    (h5 : ∀ s ∈ seg_sizes, s < 2 ^ 31)
    (h6 : input.length = k * seg_sizes.sum) (h7 : 1 ≤ k)
    (h8 : k < 2 ^ 32) :
    ∃ F, compress_file_multi seg_sizes input = some F ∧
      decompress_file F = some input := by
  have hbb : 0 < seg_sizes.sum := sum_pos_of_mem h1 h2
  have hdiv : input.length / seg_sizes.sum = k := by
    rw [h6, Nat.mul_div_cancel _ hbb]
  have hle : seg_sizes.sum ≤ input.length := by
    rw [h6]
    calc seg_sizes.sum = 1 * seg_sizes.sum := (one_mul _).symm
    _ ≤ k * seg_sizes.sum := Nat.mul_le_mul_right _ h7
  obtain ⟨F, hc, hd⟩ := compress_decompress_general seg_sizes input
    h1 h2 h3 h4 h5 hle (by rw [hdiv]; exact h8)
  refine ⟨F, hc, ?_⟩
  rw [hd, hdiv, ← h6, List.take_length]

/-- C1 witness: layout `[2]`, input `[5, 7]` (one block). -/
theorem claim_c1_roundtrip_witness :
    ∃ F, compress_file_multi [2] [5, 7] = some F ∧
      decompress_file F = some [5, 7] :=
  claim_c1_roundtrip [2] [5, 7] 1 (by decide) (by decide) (by decide)
    (by decide) (by decide) (by decide) (by decide) (by decide)

/-- Claim C5 (truncation): when the input length is
`k * block_bytes + r` with `0 < r < block_bytes`, the encoder consumes
only the first `k * block_bytes = len - r` bytes (the remainder is a
warning, not an error) and the decoded output equals the input
truncated by `r` bytes. -/
theorem claim_c5_truncation (seg_sizes input : List Nat) (k r : Nat)
    (h1 : seg_sizes ≠ []) (h2 : ∀ s ∈ seg_sizes, 0 < s)
    (h3 : seg_sizes.length < 2 ^ 31) (h4 : seg_sizes.sum < 2 ^ 32)
    (h5 : ∀ s ∈ seg_sizes, s < 2 ^ 31)
    (h6 : input.length = k * seg_sizes.sum + r) (h7 : 1 ≤ k)
    (h8 : k < 2 ^ 32) (h9 : 0 < r) (h10 : r < seg_sizes.sum) :
    ∃ F, compress_file_multi seg_sizes input = some F ∧
      decompress_file F = some (input.take (input.length - r)) := by
  have hbb : 0 < seg_sizes.sum := sum_pos_of_mem h1 h2
  have hdiv : input.length / seg_sizes.sum = k := by
    have hcomm : k * seg_sizes.sum + r = seg_sizes.sum * k + r := by ring
    rw [h6, hcomm, Nat.mul_add_div hbb, Nat.div_eq_of_lt h10, Nat.add_zero]
  have h1k : seg_sizes.sum ≤ k * seg_sizes.sum := by
    calc seg_sizes.sum = 1 * seg_sizes.sum := (one_mul _).symm
    _ ≤ k * seg_sizes.sum := Nat.mul_le_mul_right _ h7
  obtain ⟨F, hc, hd⟩ := compress_decompress_general seg_sizes input
    h1 h2 h3 h4 h5 (by omega) (by rw [hdiv]; exact h8)
  refine ⟨F, hc, ?_⟩
  rw [hd, hdiv]
  have hkr : k * seg_sizes.sum = input.length - r := by omega
  rw [hkr]

/-- C5 witness: layout `[2]`, input `[5, 7, 9]` — the trailing byte is
discarded and the decode returns the first two bytes. -/
theorem claim_c5_truncation_witness :
    ∃ F, compress_file_multi [2] [5, 7, 9] = some F ∧
      decompress_file F = some [5, 7] :=
  claim_c5_truncation [2] [5, 7, 9] 1 1 (by decide) (by decide) (by decide)
    (by decide) (by decide) (by decide) (by decide) (by decide) (by decide)
    (by decide)

/-- Claim C6 (deviation inverse): for a valid layout and any block of
exactly `block_bytes = Σ seg_sizes` bytes, merging the base and the
deviation produced by splitting the block reconstructs it exactly:
`merge(split(b).base, split(b).dev) = b`. -/
theorem claim_c6_deviation_inverse (seg_sizes b : List Nat)
    (_h1 : seg_sizes ≠ []) (_h2 : ∀ s ∈ seg_sizes, 0 < s)
    (hb : b.length = seg_sizes.sum) :
    (merge_base_and_deviation_multi seg_sizes
      (extract_base_and_deviation_multi seg_sizes b).1
      (extract_base_and_deviation_multi seg_sizes b).2).1 = b :=
  merge_extract seg_sizes b hb

/-- C6 witness: layout `[2, 3]` and the five-byte block
`[1, 2, 3, 4, 5]`. -/
theorem claim_c6_deviation_inverse_witness :
    (merge_base_and_deviation_multi [2, 3]
      (extract_base_and_deviation_multi [2, 3] [1, 2, 3, 4, 5]).1
      (extract_base_and_deviation_multi [2, 3] [1, 2, 3, 4, 5]).2).1 =
      [1, 2, 3, 4, 5] :=
  claim_c6_deviation_inverse [2, 3] [1, 2, 3, 4, 5] (by decide) (by decide)
    (by decide)

/-- Claim C9 (dictionary contract): `dict_find` returns the index of a
stored block whose `block_size` bytes equal the probe's byte-for-byte
(`memcmp` over `block_size` bytes), with the index below the store's
size; it returns `-1` exactly when no stored block matches; and
`dict_add` appends a copy of the block's first `block_size` bytes and
returns an index equal to the dictionary's size before the
insertion. -/
theorem claim_c9_dictionary_contract (block_size : Nat)
    (blocks : List (List Nat)) (block : List Nat) :
    (∀ i : Nat, dict_find block_size blocks block = (i : Int) →
      i < blocks.length ∧
        (blocks.getD i []).take block_size = block.take block_size) ∧
    (dict_find block_size blocks block = -1 ↔
      ∀ e ∈ blocks, e.take block_size ≠ block.take block_size) ∧
    dict_add block_size blocks block =
      (blocks ++ [block.take block_size], blocks.length) := by
  refine ⟨?_, dict_find_neg _ _ _, rfl⟩
  intro i hi
  have hne : dict_find block_size blocks block ≠ -1 := by
    rw [hi]
    omega
  obtain ⟨hlt, hfd⟩ := dict_find_pos block_size blocks block hne
  have ht : (dict_find block_size blocks block).toNat = i := by
    rw [hi]
    simp
  rw [ht] at hlt hfd
  exact ⟨hlt, hfd⟩

/-- C9 witness: a two-entry dictionary of two-byte blocks; `find` of
`[3, 4]` returns index 1 and `insert` appends and returns the previous
size 2. -/
theorem claim_c9_dictionary_contract_witness :
    (1 < ([[1, 2], [3, 4]] : List (List Nat)).length ∧
      (([[1, 2], [3, 4]] : List (List Nat)).getD 1 []).take 2 =
        ([3, 4] : List Nat).take 2) ∧
    dict_add 2 [[1, 2], [3, 4]] [3, 4] = ([[1, 2], [3, 4], [3, 4]], 2) :=
  ⟨(claim_c9_dictionary_contract 2 [[1, 2], [3, 4]] [3, 4]).1 1 (by decide),
   by simpa using (claim_c9_dictionary_contract 2 [[1, 2], [3, 4]] [3, 4]).2.2⟩

/-- Claim C10 (derived deviation positions): the deviation vector of a
block is exactly the first `⌊len/2⌋` bytes of each segment in declared
order (one extra byte on an odd-sized last segment) — the code's
extraction equals the spec-worded `dev_bytes_spec`; its length is the
layout-determined `compute_dev_len_multi`, which is at least 1 for
every valid layout (the deviation stream is never empty); and a
produced segment file consists of magic, five u32 header words, the
`seg_sizes`, the dictionary, the ids and the deviation stream — no
list of deviation positions is serialized. -/
theorem claim_c10_derived_dev_positions (seg_sizes block input F : List Nat)
    (h1 : seg_sizes ≠ []) (h2 : ∀ s ∈ seg_sizes, 1 ≤ s)
    (hb : block.length = seg_sizes.sum)
    (hF : compress_file_multi seg_sizes input = some F) :
    (extract_base_and_deviation_multi seg_sizes block).2 =
      dev_bytes_spec seg_sizes block ∧
    (extract_base_and_deviation_multi seg_sizes block).2.length =
      compute_dev_len_multi seg_sizes ∧
    1 ≤ compute_dev_len_multi seg_sizes ∧
    ∃ (dictF : List (List Nat)) (ids devS : List Nat),
      F = ddp2_magic ++ write_u32_le seg_sizes.sum ++
        write_u32_le seg_sizes.length ++ write_u32_le dictF.length ++
        write_u32_le (input.length / seg_sizes.sum) ++
        (seg_sizes.map write_u32_le).flatten ++ dictF.flatten ++
        (ids.map write_u32_le).flatten ++ devS := by
  obtain ⟨_, _, _, dictF, ids, devS, _, hFeq⟩ :=
    compress_file_multi_inv seg_sizes input F hF
  exact ⟨extract_dev_eq_spec seg_sizes block,
    extract_dev_length seg_sizes block (by omega),
    compute_dev_len_multi_pos seg_sizes h1 h2,
    dictF, ids, devS, hFeq⟩

/-- C10 witness: layout `[2]`, block `[9, 9]`, and the segment file
produced for input `[5, 7]`. -/
theorem claim_c10_derived_dev_positions_witness :
    (extract_base_and_deviation_multi [2] [9, 9]).2 =
      dev_bytes_spec [2] [9, 9] ∧
    (extract_base_and_deviation_multi [2] [9, 9]).2.length =
      compute_dev_len_multi [2] ∧
    1 ≤ compute_dev_len_multi [2] ∧
    ∃ (dictF : List (List Nat)) (ids devS : List Nat),
      ddp2_sample_file = ddp2_magic ++ write_u32_le ([2] : List Nat).sum ++
        write_u32_le ([2] : List Nat).length ++ write_u32_le dictF.length ++
        write_u32_le (([5, 7] : List Nat).length / ([2] : List Nat).sum) ++
        (([2] : List Nat).map write_u32_le).flatten ++ dictF.flatten ++
        (ids.map write_u32_le).flatten ++ devS :=
  claim_c10_derived_dev_positions [2] [9, 9] [5, 7] ddp2_sample_file
    (by decide) (by decide) (by decide) (by decide)

/-- Claim C2 counterexample: `compress_file_multi` never flushes and
emits a single file whose dictionary is unbounded.  For the input of
256 pairwise-distinct two-byte blocks (`distinct_blocks_input`, block
`i` is `[i, i]`, base `[0, i]`), the one emitted file's `dict_size`
header field (u32 LE at byte offset 12) reads 256, violating the
claimed cap `dict_size ≤ 255`; no `.seg1` file or fresh dictionary
exists anywhere in the encoder. -/
theorem claim_c2_counterexample :
    ((compress_file_multi [2] distinct_blocks_input).bind
      (fun F => read_u32_le (F.drop 12))).map Prod.fst = some 256 := by
  decide

/-- Amended C2: the encoder emits exactly one segment per call and
never flushes; its dictionary simply collects every distinct base in
first-occurrence order without any cap, so the emitted `dict_size`
equals the number of distinct bases among the encoded blocks (the
final dictionary has no duplicates and contains exactly the bases of
the processed blocks). -/
theorem claim_c2_amended_no_cap (seg_sizes : List Nat) (bb dev_len : Nat)
    (blks dictF : List (List Nat)) (ids devS : List Nat)
    (hbb : bb = seg_sizes.sum)
    (hblks : ∀ blk ∈ blks, blk.length = bb)
    (heq : encode_blocks seg_sizes bb dev_len [] blks =
      some (dictF, ids, devS)) :
    dictF.Nodup ∧
    ∀ x, x ∈ dictF ↔
      ∃ blk ∈ blks,
        x = (extract_base_and_deviation_multi seg_sizes blk).1 := by
  obtain ⟨hnd, hmem⟩ := encode_blocks_dict_set seg_sizes bb dev_len blks []
    dictF ids devS hbb hblks (by simp) heq
  exact ⟨hnd List.nodup_nil, fun x => by simpa using hmem x⟩

/-- C2 amended witness: three blocks, two distinct bases. -/
theorem claim_c2_amended_no_cap_witness :
    ([[0, 2], [0, 4]] : List (List Nat)).Nodup ∧
    ∀ x, x ∈ ([[0, 2], [0, 4]] : List (List Nat)) ↔
      ∃ blk ∈ ([[1, 2], [1, 2], [3, 4]] : List (List Nat)),
        x = (extract_base_and_deviation_multi [2] blk).1 :=
  claim_c2_amended_no_cap [2] 2 1 [[1, 2], [1, 2], [3, 4]]
    [[0, 2], [0, 4]] [0, 0, 1] [1, 1, 3] (by decide) (by decide) (by decide)

/-- Claim C3 counterexample: encoding the single two-byte block
`[5, 7]` with layout `[2]` yields the 31-byte file `ddp2_sample_file`,
whose index stream is the four bytes `[0, 0, 0, 0]` at offsets 26–29
(a u32 LE per block).  Under the claimed one-byte-per-block index
stream the file would be 28 bytes long. -/
theorem claim_c3_counterexample :
    compress_file_multi [2] [5, 7] = some ddp2_sample_file ∧
    ddp2_sample_file.length = 31 ∧ (31 : Nat) ≠ 28 :=
  ⟨by decide, by decide, by decide⟩

/-- Amended C3: the wire index stream occupies exactly four bytes per
block — there is one id per block (`ids.length = num_blocks`), each id
is written with `write_u32_le` (four bytes; read back with
`read_u32_le`), so the index stream is `4·num_blocks` bytes in total;
every index value written is below the emitted `dict_size`
(`0 ≤ id < dict_size`); and a produced file's length is
`20 + 4·num_segs + dict_size·block_bytes + 4·num_blocks + num_blocks·dev_len`. -/
theorem claim_c3_amended_u32_indices (seg_sizes input F : List Nat)
    (hF : compress_file_multi seg_sizes input = some F) :
    ∃ (dictF : List (List Nat)) (ids devS : List Nat),
      F = ddp2_magic ++ write_u32_le seg_sizes.sum ++
        write_u32_le seg_sizes.length ++ write_u32_le dictF.length ++
        write_u32_le (input.length / seg_sizes.sum) ++
        (seg_sizes.map write_u32_le).flatten ++ dictF.flatten ++
        (ids.map write_u32_le).flatten ++ devS ∧
      ids.length = input.length / seg_sizes.sum ∧
      (∀ id ∈ ids, (write_u32_le id).length = 4) ∧
      ((ids.map write_u32_le).flatten).length =
        4 * (input.length / seg_sizes.sum) ∧
      (∀ id ∈ ids, id < dictF.length) ∧
      F.length = 20 + 4 * seg_sizes.length +
        dictF.length * seg_sizes.sum + 4 * ids.length + devS.length := by
  obtain ⟨_, _, _, dictF, ids, devS, heq, hFeq⟩ :=
    compress_file_multi_inv seg_sizes input F hF
  obtain ⟨dictF', ids', devS', heq', _, hdF', _, hids', _, hrel'⟩ :=
    encode_blocks_sound seg_sizes seg_sizes.sum
      (compute_dev_len_multi seg_sizes)
      (chunk_blocks (input.length / seg_sizes.sum) seg_sizes.sum input) []
      rfl rfl
      (chunk_blocks_length_mem _ _ _ (Nat.div_mul_le_self _ _))
      (by simp)
  have hsame := heq.symm.trans heq'
  simp only [Option.some.injEq, Prod.mk.injEq] at hsame
  obtain ⟨hda, hia, _⟩ := hsame
  rw [← hda] at hdF'
  have hnb : ids.length = input.length / seg_sizes.sum := by
    rw [hia, hids', chunk_blocks_count]
  have hidlt : ∀ id ∈ ids, id < dictF.length := by
    intro id hid
    rw [hia] at hid
    obtain ⟨blk, _, hR⟩ := forall₂_mem_left hrel' id hid
    rw [hda]
    exact hR.1
  refine ⟨dictF, ids, devS, hFeq, hnb, fun id _ => rfl, ?_, hidlt, ?_⟩
  · rw [flatten_map_u32_length, hnb]
  rw [hFeq]
  simp only [List.length_append, write_u32_le_length,
    flatten_map_u32_length, flatten_length_const hdF', ddp2_magic,
    List.length_cons, List.length_nil]

/-- C3 amended witness: the concrete one-block file. -/
theorem claim_c3_amended_u32_indices_witness :
    ∃ (dictF : List (List Nat)) (ids devS : List Nat),
      ddp2_sample_file = ddp2_magic ++ write_u32_le ([2] : List Nat).sum ++
        write_u32_le ([2] : List Nat).length ++ write_u32_le dictF.length ++
        write_u32_le (([5, 7] : List Nat).length / ([2] : List Nat).sum) ++
        (([2] : List Nat).map write_u32_le).flatten ++ dictF.flatten ++
        (ids.map write_u32_le).flatten ++ devS ∧
      ids.length = ([5, 7] : List Nat).length / ([2] : List Nat).sum ∧
      (∀ id ∈ ids, (write_u32_le id).length = 4) ∧
      ((ids.map write_u32_le).flatten).length =
        4 * (([5, 7] : List Nat).length / ([2] : List Nat).sum) ∧
      (∀ id ∈ ids, id < dictF.length) ∧
      ddp2_sample_file.length = 20 + 4 * ([2] : List Nat).length +
        dictF.length * ([2] : List Nat).sum + 4 * ids.length +
        devS.length :=
  claim_c3_amended_u32_indices [2] [5, 7] ddp2_sample_file (by decide)

/-- Claim C4 counterexample: a file beginning with the bytes
`D D P 2` is not rejected — `decompress_file` dispatches it to the
multi-layout decoder, which decodes the well-formed `ddp2_sample_file`
successfully and writes the output `[5, 7]`. -/
theorem claim_c4_counterexample :
    ddp2_sample_file.take 4 = [68, 68, 80, 50] ∧
    decompress_file ddp2_sample_file = some [5, 7] :=
  ⟨by decide, by decide⟩

/-- Amended C4: `decompress_file` dispatches on the magic — a file
whose first four bytes are `D D P 2` is handed to the multi-layout
decoder `decompress_file_multi` (and is decoded, not rejected, when
well-formed); only magics other than DDP1/DDP2 are rejected. -/
theorem claim_c4_amended_ddp2_dispatch (f : List Nat)
    (h : f.take 4 = ddp2_magic) :
    decompress_file f = decompress_file_multi f := by
  have hlen : 4 ≤ f.length := by
    have hc := congrArg List.length h
    rw [List.length_take] at hc
    have h4 : ddp2_magic.length = 4 := rfl
    rw [h4] at hc
    omega
  have hr : read_bytes 4 f = some (ddp2_magic, f.drop 4) := by
    unfold read_bytes
    rw [if_pos hlen, h]
  simp only [decompress_file, hr]
  simp [ddp1_magic, ddp2_magic]

/-- C4 amended witness: the sample DDP2 file routes to the multi
decoder. -/
theorem claim_c4_amended_ddp2_dispatch_witness :
    decompress_file ddp2_sample_file =
      decompress_file_multi ddp2_sample_file :=
  claim_c4_amended_ddp2_dispatch ddp2_sample_file (by decide)

/-- Claim C7 (index-overflow rejection): for every segment file that
parses, if any id in its index stream is at least the header's
`dict_size`, the decoder fails (`none`: nonzero result, no output
written). -/
theorem claim_c7_index_overflow (f : List Nat) (s : Ddp2Segment)
    (hp : parse_ddp2 f = some s)
    (hid : ∃ id ∈ s.ids, s.dict_size ≤ id) :
    decompress_file_multi f = none := by
  obtain ⟨hdl, _⟩ := parse_ddp2_inv f s hp
  simp only [decompress_file_multi, hp]
  unfold decode_ddp2
  refine decode_loop_multi_overflow _ _ _ _ _ _ _ ?_
  obtain ⟨id, hmem, hge⟩ := hid
  exact ⟨id, hmem, by omega⟩

/-- C7 witness: the S6-shaped file (`dict_size = 3`, index 5) is
rejected. -/
theorem claim_c7_index_overflow_witness :
    decompress_file_multi index_overflow_file = none :=
  claim_c7_index_overflow index_overflow_file
    ⟨2, [2], 3, 1, [[0, 0], [0, 0], [0, 0]], [5], [9]⟩ (by decide)
    (by decide)

/-- Claim C8 counterexample: the decoder never checks
`dict_size ≤ 255`.  The crafted `big_dict_file` declares
`dict_size = 256` (its u32 field at offset 12 is `write_u32_le 256`)
and is decoded successfully instead of being rejected. -/
theorem claim_c8_counterexample :
    (big_dict_file.drop 12).take 4 = write_u32_le 256 ∧
    decompress_file_multi big_dict_file = some [9, 0] :=
  ⟨by decide, by decide⟩

/-- Amended C8: when parsing a DDP2 header the decoder validates only
`num_segs > 0` — a header whose `num_segs` u32 is zero, or at least
`2^31` (negative after the C `int` cast), is rejected before any block
is decoded, whatever bytes follow; no `dict_size ≤ 255` validation is
performed. -/
theorem claim_c8_amended_header_validation (bbv ns : Nat)
    (rest : List Nat)
    (hns : ns = 0 ∨ (2 ^ 31 ≤ ns ∧ ns < 2 ^ 32)) :
    decompress_file_multi
      (ddp2_magic ++ (write_u32_le bbv ++ (write_u32_le ns ++ rest))) =
      none := by
  have hns32 : ns < 2 ^ 32 := by
    rcases hns with h | ⟨_, h⟩
    · omega
    · exact h
  have hguard : ns = 0 ∨ 2 ^ 31 ≤ ns := by
    rcases hns with h | ⟨h, _⟩
    · exact Or.inl h
    · exact Or.inr h
  have hr0 : read_bytes 4
      (ddp2_magic ++ (write_u32_le bbv ++ (write_u32_le ns ++ rest))) =
      some (ddp2_magic, write_u32_le bbv ++ (write_u32_le ns ++ rest)) :=
    read_bytes_exact (show ddp2_magic.length = 4 from rfl) _
  cases h3 : read_u32_le rest with
  | none =>
    simp only [decompress_file_multi, parse_ddp2, hr0, read_write_u32,
      Nat.mod_eq_of_lt hns32, h3]
    simp
  | some p =>
    obtain ⟨dsv, r3⟩ := p
    cases h4 : read_u32_le r3 with
    | none =>
      simp only [decompress_file_multi, parse_ddp2, hr0, read_write_u32,
        Nat.mod_eq_of_lt hns32, h3, h4]
      simp
    | some q =>
      obtain ⟨nbv, r4⟩ := q
      simp only [decompress_file_multi, parse_ddp2, hr0, read_write_u32,
        Nat.mod_eq_of_lt hns32, h3, h4, if_pos hguard]
      simp

/-- C8 amended witness: a header with `num_segs = 0` is rejected. -/
theorem claim_c8_amended_header_validation_witness :
    decompress_file_multi
      (ddp2_magic ++ (write_u32_le 2 ++ (write_u32_le 0 ++ []))) = none :=
  claim_c8_amended_header_validation 2 0 [] (Or.inl rfl)
